import Mathlib

/-!
Verification development for the mpnum factory / MPPovm subsystem.

We shallowly embed the relevant functions of `mpnum/factory.py` and
`mpnum/povm/mppovm.py` over an abstract (star-)ring of scalars.  External
collaborators (the `mparray` container, `full_rank`, the reduction utility,
`matdot`, `local_sum`, scalar in-place division) are not part of the given
sources; where a claim depends on them, they are modelled from the spec and
marked as such in their doc comments.
-/

namespace Mpnum

/-- Python exception outcomes relevant to this subsystem. -/
inductive PyErr : Type
  | assertionError : PyErr
  | notImplementedError : String → PyErr
  | valueError : String → PyErr
  | indexError : PyErr
  deriving DecidableEq

/-- Whether an `Except` computation finished without raising. -/
def isOkE {α : Type} : Except PyErr α → Bool
  | .ok _ => true
  | .error _ => false

/-! ### The rank-constrained generator `factory._generate` -/

/-- One local tensor of a generated train: the shape handed to `func` and
the value returned by `func`. -/
structure LTensorSpec (T : Type) where
  shape : List Nat
  data : T
  deriving DecidableEq

/-- The train returned by `_generate`: the ordered list of local tensors. -/
structure MPArrayG (T : Type) where
  ltens : List (LTensorSpec T)
  deriving DecidableEq

/-- Bond-rank sequence of a generated train: the last shape entry of every
local tensor except the rightmost one (`lt.shape[-1] for lt in ltens[:-1]`). -/
def MPArrayG.ranks {T : Type} (m : MPArrayG T) : List Nat :=
  m.ltens.dropLast.map (fun t => t.shape.getLastD 1)

/-- The polymorphic `ldim` argument of `_generate`: a scalar, an iterable of
scalars (first element not iterable), or an iterable of iterables. -/
inductive LDimSpec : Type
  | scalar (d : Nat)
  | row (ds : List Nat)
  | nested (dss : List (List Nat))
  deriving DecidableEq

/-- The polymorphic `rank` argument of `_generate`: a scalar or an iterable. -/
inductive RankSpec : Type
  | scalar (r : Nat)
  | row (rs : List Nat)
  deriving DecidableEq

/-- Normalization of `ldim` performed by `_generate`: a scalar becomes one
physical leg per site, an iterable of scalars becomes the same leg tuple on
every site, a nested iterable is used verbatim.  Inspecting `ldim[0]` on an
empty iterable raises `IndexError`. -/
def normLdim (sites : Nat) : LDimSpec → Except PyErr (List (List Nat))
  | .scalar d => .ok (List.replicate sites [d])
  | .row ds => if ds.isEmpty then .error .indexError else .ok (List.replicate sites ds)
  | .nested dss => if dss.isEmpty then .error .indexError else .ok dss

/-- Normalization of `rank` performed by `_generate`: a scalar is replicated
`sites - 1` times, an iterable is used verbatim. -/
def normRank (sites : Nat) : RankSpec → List Nat
  | .scalar r => List.replicate (sites - 1) r
  | .row rs => rs

/-- Modelled from the spec: `mp.full_rank` of the `mparray` collaborator
(not under the given sources).  At every cut it returns the maximum bond
rank carrying non-redundant information, bounded by the smaller side's
physical-dimension product; the result has one entry per internal bond. -/
def full_rank (ldims : List (List Nat)) : List Nat :=
  (List.range (ldims.length - 1)).map (fun cut =>
    min (((ldims.take (cut + 1)).map List.prod).prod)
        (((ldims.drop (cut + 1)).map List.prod).prod))

/-- The body of `_generate` after normalization of the two polymorphic
arguments: the two `assert` statements, the boundary ranks `1`, and the
construction of the local tensors with `func`. -/
def _generateCore {T : Type} (sites : Nat) (ldims : List (List Nat))
    (rank1 : List Nat) (func : List Nat → T) : Except PyErr (MPArrayG T) :=
  if ldims.length ≠ sites then .error .assertionError
  else if (rank1.length : Int) ≠ (sites : Int) - 1 then .error .assertionError
  else
    .ok ⟨(List.range sites).map (fun n =>
      ⟨(1 :: rank1 ++ [1]).getD n 1 ::
          (ldims.getD n [] ++ [(1 :: rank1 ++ [1]).getD (n + 1) 1]),
        func ((1 :: rank1 ++ [1]).getD n 1 ::
          (ldims.getD n [] ++ [(1 :: rank1 ++ [1]).getD (n + 1) 1]))⟩)⟩

/-- Shallow embedding of `factory._generate`.  The Python `assert` statements
become `.error .assertionError`; the comparison `len(rank) == sites - 1` is
taken over the integers, as in Python.  Note that when `force_rank` is false
the requested ranks are combined with the full-rank bounds by `zip`, which
truncates to the shorter of the two sequences. -/
def _generate {T : Type} (sites : Nat) (ldim : LDimSpec) (rank : RankSpec)
    (func : List Nat → T) (force_rank : Bool) : Except PyErr (MPArrayG T) :=
  match normLdim sites ldim with
  | .error e => .error e
  | .ok ldims =>
    _generateCore sites ldims
      (if force_rank then normRank sites rank
        else List.zipWith min (normRank sites rank) (full_rank ldims)) func

/-- Concrete train produced by `_generate 3 (scalar 2) (scalar 5) id false`:
the requested rank 5 is capped to the full-rank bound 2 at both bonds. -/
def mpaW1 : MPArrayG (List Nat) :=
  ⟨[⟨[1, 2, 2], [1, 2, 2]⟩, ⟨[2, 2, 2], [2, 2, 2]⟩, ⟨[2, 2, 1], [2, 2, 1]⟩]⟩

/-! ### Numeric local tensors and dense contraction -/

/-- A numeric local tensor `(rank_left, physical, rank_right)`. -/
structure LTen (R : Type) where
  rl : Nat
  pd : Nat
  rr : Nat
  val : Nat → Nat → Nat → R

/-- Partial contraction of a chain of local tensors against a list of
physical indices, as a function of the dangling left bond index.  The dense
array represented by a train with boundary ranks 1 is `evalFrom ts ps 0`. -/
def evalFrom {R : Type} [CommRing R] : List (LTen R) → List Nat → Nat → R
  | [], [], i => if i = 0 then 1 else 0
  | t :: ts, p :: ps, i =>
    ∑ j in Finset.range t.rr, t.val i p j * evalFrom ts ps j
  | _, _, _ => 0

/-- Bond-rank sequence of a chain of numeric local tensors. -/
def ranksL {R : Type} (l : List (LTen R)) : List Nat :=
  l.dropLast.map (fun t => t.rr)

/-- A dense numpy array argument, recorded as its shape together with a
flat-index entry function. -/
structure NdArray (R : Type) where
  shape : List Nat
  val : Nat → R

/-- Number of axes of the array. -/
def NdArray.ndim {R : Type} (a : NdArray R) : Nat := a.shape.length

/-- Result of `diagonal_mpa`: the local tensors together with the canonical
form passed to the `LocalTensors` constructor. -/
structure LocalTensors (R : Type) where
  ltens : List (LTen R)
  cform : Nat × Nat

/-- Leftmost tensor of the diagonal train:
`np.eye(ldim).reshape((1, ldim, ldim))`. -/
def diagLeft {R : Type} [Zero R] [One R] (d : Nat) : LTen R :=
  ⟨1, d, d, fun i p j => if i = 0 ∧ p = j then 1 else 0⟩

/-- Interior tensor of the diagonal train: zeros of shape `(ldim,) * 3` with
ones filled on the main diagonal by `np.fill_diagonal`. -/
def diagCenter {R : Type} [Zero R] [One R] (d : Nat) : LTen R :=
  ⟨d, d, d, fun i p j => if i = p ∧ p = j then 1 else 0⟩

/-- Rightmost tensor of the diagonal train:
`np.diag(entries).reshape((ldim, ldim, 1))`. -/
def diagRight {R : Type} [Zero R] (d : Nat) (e : Nat → R) : LTen R :=
  ⟨d, d, 1, fun i p j => if j = 0 ∧ i = p then e i else 0⟩

/-- Modelled from the spec: `MPArray.from_array` on a one-dimensional array
(the `mparray` collaborator), the length-1 direct construction — a single
local tensor of shape `(1, len(entries), 1)` holding the entries. -/
def from_array_1d {R : Type} [Zero R] (e : NdArray R) : LocalTensors R :=
  ⟨[⟨1, e.shape.headD 0, 1,
    fun i p j => if i = 0 ∧ j = 0 then e.val p else 0⟩], (0, 1)⟩

/-- Shallow embedding of `factory.diagonal_mpa`:
`assert sites > 0`, then the one-axis check, then either the direct
construction (`sites < 2`) or the hand-built three-tensor chain with
canonical form `(sites - 1, sites)`. -/
def diagonal_mpa {R : Type} [Zero R] [One R] (entries : NdArray R)
    (sites : Nat) : Except PyErr (LocalTensors R) :=
  if sites = 0 then .error .assertionError
  else if entries.ndim ≠ 1 then
    .error (.notImplementedError
      "Currently only supports diagonal MPA with one leg per site.")
  else if sites < 2 then .ok (from_array_1d entries)
  else
    .ok ⟨diagLeft (entries.shape.headD 0) ::
        (List.replicate (sites - 2) (diagCenter (entries.shape.headD 0)) ++
          [diagRight (entries.shape.headD 0) entries.val]),
      (sites - 1, sites)⟩

/-- The value of the sites-dimensional array with `entries` on the main
diagonal and zeros elsewhere, at a multi-index. -/
def diagArray {R : Type} [Zero R] (e : Nat → R) (ps : List Nat) : R :=
  if ps.all (fun x => x == ps.headD 0) then e (ps.headD 0) else 0

/-- Concrete one-dimensional entries array `[5, 6]`. -/
def entW : NdArray ℤ := ⟨[2], fun n => (n : ℤ) + 5⟩

/-- Two-dimensional entries array used for the C9 analysis. -/
def ent2W : NdArray ℤ := ⟨[2, 2], fun _ => 0⟩

/-! ### The gauge-scrambling step of `random_mpdo` -/

/-- A plain matrix with explicit dimensions and a total entry function. -/
structure Mat (R : Type) where
  rows : Nat
  cols : Nat
  val : Nat → Nat → R

/-- Modelled from the spec: `utils.matdot(l, U)` for a local tensor `l` and
a matrix `U` (the `utils` collaborator is not under the given sources) —
contraction of the tensor's right bond with the first axis of `U`, the
rewriting `l_n -> l_n . U`. -/
def matdotR {R : Type} [CommRing R] (t : LTen R) (u : Mat R) : LTen R :=
  ⟨t.rl, t.pd, u.cols, fun i p k =>
    ∑ j in Finset.range t.rr, t.val i p j * u.val j k⟩

/-- Modelled from the spec: `utils.matdot(A, l)` for a matrix `A` and a
local tensor `l` — contraction of the last axis of `A` with the tensor's
left bond, the rewriting `l_{n+1} -> A . l_{n+1}`. -/
def matdotL {R : Type} [CommRing R] (u : Mat R) (t : LTen R) : LTen R :=
  ⟨u.rows, t.pd, t.rr, fun i p k =>
    ∑ j in Finset.range u.cols, u.val i j * t.val j p k⟩

/-- Conjugate transpose `np.transpose(u).conj()`. -/
def dagger {R : Type} [Star R] (u : Mat R) : Mat R :=
  ⟨u.cols, u.rows, fun i j => star (u.val j i)⟩

/-- Default tensor for out-of-range list access. -/
def zeroT {R : Type} [Zero R] : LTen R := ⟨0, 0, 0, fun _ _ _ => 0⟩

/-- The loop body of `random_mpdo`'s gauge scrambling at bond `n`:
`rho.lt[n] = matdot(rho.lt[n], U)` followed by
`rho.lt[n+1] = matdot(transpose(U).conj(), rho.lt[n+1])`. -/
def scrambleBond {R : Type} [CommRing R] [StarRing R] (ts : List (LTen R))
    (n : Nat) (u : Mat R) : List (LTen R) :=
  (ts.set n (matdotR (ts.getD n zeroT) u)).set (n + 1)
    (matdotL (dagger u)
      ((ts.set n (matdotR (ts.getD n zeroT) u)).getD (n + 1) zeroT))

/-- `u` is unitary of dimension `r`: `U U^H = I` and `U^H U = I` on the
index range below `r`. -/
def unitaryOn {R : Type} [CommRing R] [StarRing R] (u : Mat R) (r : Nat) :
    Prop :=
  (∀ a < r, ∀ b < r,
    (∑ j in Finset.range r, u.val a j * star (u.val b j)) =
      if a = b then 1 else 0) ∧
  (∀ a < r, ∀ b < r,
    (∑ j in Finset.range r, star (u.val j a) * u.val j b) =
      if a = b then 1 else 0)

/-- Modelled from the spec: `mp.trace` of the `mparray` collaborator for an
operator-form train, here as a recursive contraction — at every site the two
paired physical legs (row-major, local dimension `ld`, flat index
`a * ld + a` on the diagonal) are summed over, threaded through the bonds. -/
def traceFrom {R : Type} [CommRing R] : List (LTen R) → List Nat → Nat → R
  | [], [], i => if i = 0 then 1 else 0
  | t :: ts, ld :: lds, i =>
    ∑ j in Finset.range t.rr,
      (∑ a in Finset.range ld, t.val i (a * ld + a) j) * traceFrom ts lds j
  | _, _, _ => 0

/-- Trace of the represented operator of an operator-form train with local
dimensions `lds`. -/
def mptrace {R : Type} [CommRing R] (ts : List (LTen R)) (lds : List Nat) :
    R :=
  traceFrom ts lds 0

/-- Modelled from the spec: the collaborator's scalar in-place divide
`rho /= c` divides the represented operator by `c`; realized on one local
tensor. -/
def divScalar {R : Type} [Field R] : List (LTen R) → R → List (LTen R)
  | [], _ => []
  | t :: ts, c => ⟨t.rl, t.pd, t.rr, fun i p j => t.val i p j / c⟩ :: ts

/-- Concrete 1x1x1 tensors over the integers for the scrambling witness. -/
def t1W : LTen ℤ := ⟨1, 1, 1, fun _ _ _ => 2⟩

/-- Second concrete tensor for the scrambling witness. -/
def t2W : LTen ℤ := ⟨1, 1, 1, fun _ _ _ => 3⟩

/-- The 1x1 identity, a unitary of dimension 1. -/
def uW : Mat ℤ := ⟨1, 1, fun _ _ => 1⟩

/-- Concrete operator-form train over the rationals with trace 1. -/
def tsW : List (LTen ℚ) := [⟨1, 1, 1, fun _ _ _ => 1⟩]

/-! ### The multipartite POVM and its expectation engine -/

/-- A POVM local tensor with three physical legs
`(outcome, row, column)` between the two bond legs. -/
structure PTen (R : Type) where
  rl : Nat
  nout : Nat
  drow : Nat
  dcol : Nat
  rr : Nat
  val : Nat → Nat → Nat → Nat → Nat → R

/-- An `MPPovm`: the underlying train of three-physical-leg local tensors. -/
structure MPPovm (R : Type) where
  ltens : List (PTen R)

/-- A probability-map local tensor, with two physical legs
`(outcome, row·column)`. -/
structure PMTen (R : Type) where
  rl : Nat
  nout : Nat
  dd : Nat
  rr : Nat
  val : Nat → Nat → Nat → Nat → R

/-- Shallow embedding of `MPPovm.probability_map`: every local tensor's
`(outcome, row, column)` physical block is reshaped row-major to
`(outcome, row·column)` and conjugated, i.e.
`mp._local_reshape(ten, (ten.shape[1], -1)).conj()`. -/
def MPPovm.probability_map {R : Type} [Star R] (m : MPPovm R) :
    List (PMTen R) :=
  m.ltens.map (fun t => ⟨t.rl, t.nout, t.drow * t.dcol, t.rr,
    fun b o rc b2 => star (t.val b o (rc / t.dcol) (rc % t.dcol) b2)⟩)

/-- The host MPA of `expectations`, recorded by its per-site physical-leg
counts; its tensor content is consumed only through the reduction
collaborator. -/
structure HostMPA where
  plegs : List Nat

/-- Modelled from the spec: the reduction collaborator
`mpsmpo.reductions_mpo(mpa, width)` — the sequence of reduced density
matrices for every contiguous window of `width` sites, in increasing
start-index order; the reduced operator at each window start is supplied by
the collaborator function `reduceW`. -/
def reductions_mpo {Rho : Type} (mpa : HostMPA) (width : Nat)
    (reduceW : Nat → Rho) : List Rho :=
  (List.range (mpa.plegs.length - width + 1)).map reduceW

/-- Shallow embedding of `MPPovm.expectations` (the generator is taken
eagerly: the values it would yield are collected in order).  `ravel` is the
collaborator flattening a reduced operator to a vector and `dotf` is the
collaborator `mp.dot`. -/
def expectations {R Rho W V : Type} [Star R] (povm : MPPovm R)
    (mpa : HostMPA) (reduceW : Nat → Rho) (ravel : Rho → W)
    (dotf : List (PMTen R) → W → V) : Except PyErr (List V) :=
  if ¬ (povm.ltens.length ≤ mpa.plegs.length) then .error .assertionError
  else if mpa.plegs.all (fun p => p == 1) then
    .error (.notImplementedError "MPS expectations coming soon")
  else if mpa.plegs.all (fun p => p == 2) then
    .ok ((reductions_mpo mpa povm.ltens.length reduceW).map
      (fun rho => dotf povm.probability_map (ravel rho)))
  else .error (.valueError "Could not understand data dype.")

/-- A single-site device with two outcomes on a qubit. -/
def povmW : MPPovm ℤ := ⟨[⟨1, 2, 2, 2, 1, fun _ _ _ _ _ => 0⟩]⟩

/-- A two-site mixed-state host (two physical legs per site). -/
def hostW : HostMPA := ⟨[2, 2]⟩

/-- A two-site pure-state host (one physical leg per site). -/
def hostW1 : HostMPA := ⟨[1, 1]⟩

/-- A host with a mix of one and two physical legs. -/
def hostWmix : HostMPA := ⟨[1, 2]⟩

/-- A host with fewer sites than the device. -/
def hostWshort : HostMPA := ⟨[]⟩

/-- Collaborator stand-ins for the witnesses. -/
def redW : Nat → Unit := fun _ => ()

/-- Trivial ravel collaborator for the witnesses. -/
def ravW : Unit → Unit := fun _ => ()

/-- Trivial contraction collaborator for the witnesses. -/
def dotW : List (PMTen ℤ) → Unit → ℤ := fun _ _ => 7

/-! ### The Haar-random unitary sampler -/

/-- Shallow embedding of `factory._unitary_haar`, with the external
numerics as parameters: `z` is the complex Gaussian draw
`_zrandn((dim, dim))`, `qrf` is `scipy.linalg.qr`, `sqrt2` is
`np.sqrt(2.0)` and `absv` is the elementwise complex modulus `np.abs`.
The code divides the draw by `sqrt(2)`, QR-decomposes, and returns
`q * ph` with `ph = diagonal(r) / abs(diagonal(r))` — numpy broadcasting
multiplies column `j` of `q` by `ph[j]`. -/
def _unitary_haar {R : Type} [Field R] (dim : Nat) (z : Mat R)
    (qrf : Mat R → Mat R × Mat R) (sqrt2 : R) (absv : R → R) : Mat R :=
  let q := (qrf ⟨dim, dim, fun i j => z.val i j / sqrt2⟩).1
  let r := (qrf ⟨dim, dim, fun i j => z.val i j / sqrt2⟩).2
  ⟨dim, dim, fun i j => q.val i j * (r.val j j / absv (r.val j j))⟩

/-- The spec's description of `haar_unitary`, written from its words: draw
a complex Gaussian `dim×dim` matrix scaled by `1/√2`; compute its QR
decomposition `Q·R`; let `d` be the diagonal of `R`; compute the
elementwise phase `ph = d / |d|`; return `Q` with each column rescaled by
the corresponding phase entry. -/
def haar_unitary_spec {R : Type} [Field R] (dim : Nat) (z : Mat R)
    (qrf : Mat R → Mat R × Mat R) (sqrt2 : R) (absv : R → R) : Mat R :=
  let scaled : Mat R := ⟨dim, dim, fun i j => (1 / sqrt2) * z.val i j⟩
  let qr := qrf scaled
  let d : Nat → R := fun j => qr.2.val j j
  let ph : Nat → R := fun j => d j / absv (d j)
  ⟨dim, dim, fun i j => ph j * qr.1.val i j⟩

/-! ### Random local Hamiltonians -/

/-- `_random_op(intlen, ldim, hermitian=True, normalized=True)` at the
dense-matrix level: `op += op.conj().T`. -/
def hermitize {R : Type} [CommRing R] [StarRing R] (g : Mat R) : Mat R :=
  ⟨g.rows, g.cols, fun i j => g.val i j + star (g.val j i)⟩

/-- The hermitized draw divided by its Frobenius norm (`op /= norm(op)`);
the Gaussian draw `g` and the computed norm value `nrm` are parameters. -/
def _random_op_hn {R : Type} [Field R] [StarRing R] (g : Mat R) (nrm : R) :
    Mat R :=
  ⟨g.rows, g.cols, fun i j => (hermitize g).val i j / nrm⟩

/-- Squared Frobenius norm of a matrix. -/
def frobSq {R : Type} [CommRing R] [StarRing R] (m : Mat R) : R :=
  ∑ i in Finset.range m.rows, ∑ j in Finset.range m.cols,
    m.val i j * star (m.val i j)

/-- Modelled from the spec: the embedding of an `intlen`-site dense
operator at window offset `i` of a `sites`-site chain with identity
elsewhere, in row-major global indices. -/
def embedAt {R : Type} [CommRing R] (ld sites intlen i : Nat) (m : Mat R) :
    Mat R :=
  ⟨ld ^ sites, ld ^ sites, fun r c =>
    if r / (ld ^ intlen * ld ^ (sites - intlen - i))
          = c / (ld ^ intlen * ld ^ (sites - intlen - i))
        ∧ r % ld ^ (sites - intlen - i) = c % ld ^ (sites - intlen - i)
    then m.val (r / ld ^ (sites - intlen - i) % ld ^ intlen)
      (c / ld ^ (sites - intlen - i) % ld ^ intlen)
    else 0⟩

/-- Modelled from the spec: `mp.local_sum` of the `mparray` collaborator —
the sum of identical-shape terms, the `i`-th term embedded with its window
slid `i` sites from the left. -/
def local_sum {R : Type} [CommRing R] (ld sites intlen : Nat)
    (terms : List (Mat R)) : Mat R :=
  ⟨ld ^ sites, ld ^ sites, fun r c =>
    (terms.enum.map
      (fun ni => (embedAt ld sites intlen ni.1 ni.2).val r c)).sum⟩

/-- The list of Hermitian unit-norm terms drawn by `random_local_ham`:
one fresh `get_local_ham()` draw per window. -/
def hamTerms {R : Type} [Field R] [StarRing R] (sites intlen : Nat)
    (gen : Nat → Mat R × R) : List (Mat R) :=
  (List.range (sites + 1 - intlen)).map
    (fun k => _random_op_hn (gen k).1 (gen k).2)

/-- Shallow embedding of `factory.random_local_ham`: assert
`sites >= intlen`, then the local sum of `sites + 1 - intlen` freshly drawn
Hermitian unit-norm `intlen`-site terms.  The conversion to per-site
paired-leg form (`global_to_local`, `from_array(..., ndims=2)`) is the
collaborators' shape bookkeeping; the model stays at the dense-matrix
level. -/
def random_local_ham {R : Type} [Field R] [StarRing R]
    (sites ldim intlen : Nat) (gen : Nat → Mat R × R) :
    Except PyErr (Mat R) :=
  if sites < intlen then .error .assertionError
  else .ok (local_sum ldim sites intlen (hamTerms sites intlen gen))

/-- Zero matrix, the default for out-of-range list access. -/
def matZero {R : Type} [Zero R] : Mat R := ⟨0, 0, fun _ _ => 0⟩

/-- Concrete draw for the witness: the constant one-by-one matrix 1, whose
hermitization is the one-by-one matrix 2, of Frobenius norm 2. -/
def genW : Nat → Mat ℚ × ℚ := fun _ => (⟨1, 1, fun _ _ => (1 : ℚ)⟩, 2)

/-! ### Theorems -/

/-! Helper lemmas about lists used for the generator theorems. -/

theorem range_map_getD {α : Type} (l : List α) (d : α) :
    (List.range l.length).map (fun n => l.getD n d) = l := by
  induction l with
  | nil => rfl
  | cons a l ih =>
    rw [List.length_cons, List.range_succ_eq_map, List.map_cons, List.map_map]
    have h1 : ((fun n => (a :: l).getD n d) ∘ Nat.succ) = fun n => l.getD n d := rfl
    have h2 : (a :: l).getD 0 d = a := rfl
    rw [h1, h2, ih]

theorem dropLast_range_map {α : Type} (k : Nat) (f : Nat → α) :
    ((List.range k).map f).dropLast = (List.range (k - 1)).map f := by
  cases k with
  | zero => rfl
  | succ m =>
    rw [List.range_succ, List.map_append, List.map_singleton,
      List.dropLast_concat, Nat.succ_sub_one]

theorem getLastD_concat_aux {α : Type} (l : List α) (r : α) :
    ∀ a, (l ++ [r]).getLastD a = r := by
  induction l with
  | nil => intro a; rfl
  | cons x xs ih => intro a; rw [List.cons_append, List.getLastD_cons]; exact ih x

theorem getLastD_shape (a r : Nat) (ld : List Nat) :
    (a :: (ld ++ [r])).getLastD 1 = r := by
  rw [List.getLastD_cons]; exact getLastD_concat_aux ld r a

/-- A successful `_generateCore` call passed both assertions, and the ranks
of the produced train are exactly `rank1`. -/
theorem generateCore_ok {T : Type} (sites : Nat) (ldims : List (List Nat))
    (rank1 : List Nat) (func : List Nat → T) (mpa : MPArrayG T)
    (hok : _generateCore sites ldims rank1 func = .ok mpa) :
    ldims.length = sites ∧ ((rank1.length : Int) = (sites : Int) - 1) ∧
      mpa.ranks = rank1 := by
  unfold _generateCore at hok
  by_cases hl : ldims.length ≠ sites
  · rw [if_pos hl] at hok; simp at hok
  · rw [if_neg hl] at hok
    by_cases hr : (rank1.length : Int) ≠ (sites : Int) - 1
    · rw [if_pos hr] at hok; simp at hok
    · rw [if_neg hr] at hok
      have hl' : ldims.length = sites := of_not_not hl
      have hr' : (rank1.length : Int) = (sites : Int) - 1 := of_not_not hr
      refine ⟨hl', hr', ?_⟩
      have hmpa : mpa = ⟨(List.range sites).map (fun n =>
          ⟨(1 :: rank1 ++ [1]).getD n 1 ::
              (ldims.getD n [] ++ [(1 :: rank1 ++ [1]).getD (n + 1) 1]),
            func ((1 :: rank1 ++ [1]).getD n 1 ::
              (ldims.getD n [] ++ [(1 :: rank1 ++ [1]).getD (n + 1) 1]))⟩)⟩ := by
        cases hok; rfl
      subst hmpa
      have hlen1 : rank1.length = sites - 1 := by omega
      unfold MPArrayG.ranks
      simp only
      rw [dropLast_range_map, List.map_map]
      have hmem : ∀ n ∈ List.range (sites - 1),
          ((fun t : LTensorSpec T => t.shape.getLastD 1) ∘ (fun n =>
            (⟨(1 :: rank1 ++ [1]).getD n 1 ::
                (ldims.getD n [] ++ [(1 :: rank1 ++ [1]).getD (n + 1) 1]),
              func ((1 :: rank1 ++ [1]).getD n 1 ::
                (ldims.getD n [] ++ [(1 :: rank1 ++ [1]).getD (n + 1) 1]))⟩ :
                  LTensorSpec T))) n
          = (fun n => rank1.getD n 1) n := by
        intro n hn
        simp only [Function.comp]
        rw [getLastD_shape]
        have hn' : n < sites - 1 := List.mem_range.mp hn
        have h3 : (1 :: rank1 ++ [1]).getD (n + 1) 1 = (rank1 ++ [1]).getD n 1 := rfl
        rw [h3, List.getD_append rank1 [1] 1 n (by omega)]
      rw [List.map_congr_left hmem, ← hlen1, range_map_getD]

theorem zipWith_min_getD_le (a b : List Nat) (i : Nat)
    (h : i < (List.zipWith min a b).length) :
    (List.zipWith min a b).getD i 0 ≤ b.getD i 0 := by
  induction a generalizing b i with
  | nil => simp at h
  | cons x xs ih =>
    cases b with
    | nil => simp at h
    | cons y ys =>
      cases i with
      | zero => exact min_le_right x y
      | succ j =>
        simp only [List.zipWith_cons_cons, List.length_cons] at h
        exact ih ys j (by omega)

/-- Success of `_generateCore` is equivalent to both assertions passing. -/
theorem generateCore_isOk {T : Type} (sites : Nat) (ldims : List (List Nat))
    (rank1 : List Nat) (func : List Nat → T) :
    isOkE (_generateCore sites ldims rank1 func) = true ↔
      ldims.length = sites ∧ (rank1.length : Int) = (sites : Int) - 1 := by
  unfold _generateCore
  split_ifs with h1 h2
  · simp [isOkE, h1]
  · simp [isOkE, h2]
  · push_neg at h1 h2
    simp [isOkE, h1, h2]

/-- Success of `_generate` is equivalent to: `ldim` normalizes, its length
is `sites`, and the (possibly capped) rank sequence has length `sites - 1`. -/
theorem generate_isOk {T : Type} (sites : Nat) (ldim : LDimSpec)
    (rank : RankSpec) (func : List Nat → T) (b : Bool) :
    isOkE (_generate sites ldim rank func b) = true ↔
      ∃ ldims, normLdim sites ldim = .ok ldims ∧ ldims.length = sites ∧
        (((if b then normRank sites rank
          else List.zipWith min (normRank sites rank) (full_rank ldims)).length : Int)
            = (sites : Int) - 1) := by
  unfold _generate
  cases h : normLdim sites ldim with
  | error e => simp [isOkE]
  | ok ldims =>
    rw [generateCore_isOk]
    constructor
    · intro hc
      exact ⟨ldims, rfl, hc⟩
    · rintro ⟨l, hl, h1, h2⟩
      cases hl
      exact ⟨h1, h2⟩

/-- C1.  For every successful `_generate` call the bond-rank sequence has
length `sites - 1`; with `force_rank` the ranks equal the normalized request
exactly; without it every bond rank is the minimum of the requested rank and
the full-rank bound at that cut, hence at most that bound. -/
theorem generate_rank_spec {T : Type} (sites : Nat) (ldim : LDimSpec)
    (rank : RankSpec) (func : List Nat → T) (force_rank : Bool)
    (ldims : List (List Nat)) (mpa : MPArrayG T) (i : Nat)
    (hld : normLdim sites ldim = .ok ldims)
    (hok : _generate sites ldim rank func force_rank = .ok mpa)
    (hi : i < sites - 1) :
    mpa.ranks.length = sites - 1 ∧
    (force_rank = true → mpa.ranks = normRank sites rank) ∧
    (force_rank = false →
      mpa.ranks = List.zipWith min (normRank sites rank) (full_rank ldims) ∧
      mpa.ranks.getD i 0 ≤ (full_rank ldims).getD i 0) := by
  have hok' : _generateCore sites ldims
      (if force_rank then normRank sites rank
        else List.zipWith min (normRank sites rank) (full_rank ldims)) func
      = .ok mpa := by
    rw [_generate, hld] at hok
    exact hok
  obtain ⟨hlds, hlen, hranks⟩ := generateCore_ok _ _ _ _ _ hok'
  cases force_rank with
  | true =>
    rw [if_pos rfl] at hranks hlen
    refine ⟨?_, fun _ => hranks, fun h => by cases h⟩
    rw [hranks]; omega
  | false =>
    rw [if_neg (by simp)] at hranks hlen
    refine ⟨?_, ?_, ?_⟩
    · rw [hranks]; omega
    · intro h; cases h
    · intro _
      refine ⟨hranks, ?_⟩
      rw [hranks]
      apply zipWith_min_getD_le
      omega

theorem generate_rank_spec_witness :
    (MPArrayG.ranks mpaW1).length = 3 - 1 ∧
    (false = true → MPArrayG.ranks mpaW1 = normRank 3 (.scalar 5)) ∧
    (false = false →
      MPArrayG.ranks mpaW1 =
        List.zipWith min (normRank 3 (.scalar 5)) (full_rank [[2], [2], [2]]) ∧
      (MPArrayG.ranks mpaW1).getD 0 0 ≤ (full_rank [[2], [2], [2]]).getD 0 0) :=
  generate_rank_spec 3 (.scalar 2) (.scalar 5) (fun s => s) false
    [[2], [2], [2]] mpaW1 0 rfl rfl (by decide)

/-- C3 counterexample.  A rank sequence of length 2 at `sites = 2` (so the
length differs from `sites - 1 = 1`) does not raise when `force_rank` is
false: the `zip` against the full-rank bounds silently truncates it. -/
theorem generate_overlong_rank_accepted :
    [3, 3].length ≠ 2 - 1 ∧
    isOkE (_generate 2 (LDimSpec.scalar 2) (RankSpec.row [3, 3])
      (fun s => s) false) = true := by
  decide

/-- C3 amended.  `_generate` raises on: a rank sequence of length other than
`sites - 1` when `force_rank` is true; a rank sequence shorter than
`sites - 1` for either value of `force_rank`; a nested ldim sequence whose
length differs from `sites`.  But an over-long rank sequence with
`force_rank` false is silently truncated by the full-rank `zip` and the call
succeeds. -/
theorem generate_shape_mismatch_amended {T : Type}
    (sites1 : Nat) (ldim1 : LDimSpec) (rs1 : List Nat) (func1 : List Nat → T)
    (sites2 : Nat) (ldim2 : LDimSpec) (rs2 : List Nat) (func2 : List Nat → T)
    (b2 : Bool)
    (sites3 : Nat) (dss3 : List (List Nat)) (rank3 : RankSpec)
    (func3 : List Nat → T) (b3 : Bool)
    (sites4 : Nat) (ldim4 : LDimSpec) (ldims4 : List (List Nat))
    (rs4 : List Nat) (func4 : List Nat → T)
    (h1 : (rs1.length : Int) ≠ (sites1 : Int) - 1)
    (h2 : rs2.length < sites2 - 1)
    (h3 : dss3.length ≠ sites3)
    (h4a : normLdim sites4 ldim4 = .ok ldims4)
    (h4b : ldims4.length = sites4)
    (h4c : sites4 - 1 ≤ rs4.length)
    (h4d : 1 ≤ sites4) :
    isOkE (_generate sites1 ldim1 (.row rs1) func1 true) = false ∧
    isOkE (_generate sites2 ldim2 (.row rs2) func2 b2) = false ∧
    isOkE (_generate sites3 (.nested dss3) rank3 func3 b3) = false ∧
    isOkE (_generate sites4 ldim4 (.row rs4) func4 false) = true := by
  refine ⟨?_, ?_, ?_, ?_⟩
  · rw [Bool.eq_false_iff]
    intro htrue
    rw [generate_isOk] at htrue
    obtain ⟨ldims, -, -, hlen⟩ := htrue
    rw [if_pos rfl] at hlen
    exact h1 hlen
  · rw [Bool.eq_false_iff]
    intro htrue
    rw [generate_isOk] at htrue
    obtain ⟨ldims, -, hsz, hlen⟩ := htrue
    have hfr : (full_rank ldims).length = sites2 - 1 := by
      unfold full_rank
      rw [List.length_map, List.length_range, hsz]
    cases b2 with
    | true =>
      rw [if_pos rfl] at hlen
      simp only [normRank] at hlen
      omega
    | false =>
      rw [if_neg (by simp)] at hlen
      rw [List.length_zipWith] at hlen
      simp only [normRank] at hlen
      rw [hfr] at hlen
      omega
  · rw [Bool.eq_false_iff]
    intro htrue
    rw [generate_isOk] at htrue
    obtain ⟨ldims, hld, hsz, -⟩ := htrue
    simp only [normLdim] at hld
    by_cases he : dss3.isEmpty
    · rw [if_pos he] at hld; cases hld
    · rw [if_neg he] at hld
      cases hld
      exact h3 hsz
  · rw [generate_isOk]
    refine ⟨ldims4, h4a, h4b, ?_⟩
    rw [if_neg (by simp), List.length_zipWith]
    have hfr : (full_rank ldims4).length = sites4 - 1 := by
      unfold full_rank
      rw [List.length_map, List.length_range, h4b]
    simp only [normRank]
    rw [hfr]
    omega

theorem generate_shape_mismatch_amended_witness :
    isOkE (_generate 2 (LDimSpec.scalar 2) (RankSpec.row []) (fun s => s) true)
      = false ∧
    isOkE (_generate 3 (LDimSpec.scalar 2) (RankSpec.row [4]) (fun s => s)
      false) = false ∧
    isOkE (_generate 2 (LDimSpec.nested [[2]]) (RankSpec.scalar 3)
      (fun s => s) false) = false ∧
    isOkE (_generate 2 (LDimSpec.scalar 2) (RankSpec.row [7, 7]) (fun s => s)
      false) = true :=
  generate_shape_mismatch_amended 2 (LDimSpec.scalar 2) [] (fun s => s)
    3 (LDimSpec.scalar 2) [4] (fun s => s) false
    2 [[2]] (RankSpec.scalar 3) (fun s => s) false
    2 (LDimSpec.scalar 2) [[2], [2]] [7, 7] (fun s => s)
    (by decide) (by decide) (by decide) rfl (by decide) (by decide)
    (by decide)

theorem diag_tail_eval {R : Type} [CommRing R] (d : Nat) (e : Nat → R)
    (m : Nat) :
    ∀ ps i, ps.length = m + 1 → (∀ x ∈ ps, x < d) →
      evalFrom (List.replicate m (diagCenter d) ++ [diagRight d e]) ps i =
        if ps.all (fun x => x == i) then e i else 0 := by
  induction m with
  | zero =>
    intro ps i hlen _
    match ps, hlen with
    | [p], _ =>
      show (∑ j in Finset.range 1,
        (if j = 0 ∧ i = p then e i else 0) * evalFrom [] [] j) = _
      rw [Finset.sum_range_one]
      by_cases hip : i = p
      · simp [evalFrom, hip]
      · have hpi : ¬ p = i := fun h => hip h.symm
        simp [evalFrom, hip, hpi]
  | succ m ih =>
    intro ps i hlen hbd
    match ps, hlen with
    | p :: ps, hlen =>
      have hp : p < d := hbd p (by simp)
      have hlen' : ps.length = m + 1 := by simpa using hlen
      show (∑ j in Finset.range d,
        (if i = p ∧ p = j then (1 : R) else 0) *
          evalFrom (List.replicate m (diagCenter d) ++ [diagRight d e]) ps j)
        = _
      have hsum : (∑ j in Finset.range d,
          (if i = p ∧ p = j then (1 : R) else 0) *
            evalFrom (List.replicate m (diagCenter d) ++ [diagRight d e]) ps j)
          = (if i = p ∧ p = p then (1 : R) else 0) *
            evalFrom (List.replicate m (diagCenter d) ++ [diagRight d e]) ps p := by
        apply Finset.sum_eq_single
        · intro b _ hbp
          have hn : ¬ (i = p ∧ p = b) := fun h => hbp h.2.symm
          rw [if_neg hn, zero_mul]
        · intro hnp
          exact absurd (Finset.mem_range.mpr hp) hnp
      rw [hsum, ih ps p hlen' (fun x hx => hbd x (by simp [hx]))]
      by_cases hip : i = p
      · subst hip
        simp
      · have hpi : ¬ p = i := fun h => hip h.symm
        simp [hip, hpi]

theorem diag_dense_eval {R : Type} [CommRing R] (d : Nat) (e : Nat → R)
    (sites : Nat) (ps : List Nat) (hs : 2 ≤ sites) (hlen : ps.length = sites)
    (hbd : ∀ x ∈ ps, x < d) :
    evalFrom (diagLeft d ::
        (List.replicate (sites - 2) (diagCenter d) ++ [diagRight d e])) ps 0 =
      diagArray e ps := by
  obtain ⟨k, rfl⟩ : ∃ k, sites = k + 2 := ⟨sites - 2, by omega⟩
  match ps, hlen with
  | p :: ps, hlen =>
    have hp : p < d := hbd p (by simp)
    have hlen' : ps.length = k + 1 := by
      simp only [List.length_cons] at hlen
      omega
    show (∑ j in Finset.range d,
      (if (0 : Nat) = 0 ∧ p = j then (1 : R) else 0) *
        evalFrom (List.replicate k (diagCenter d) ++ [diagRight d e])
          ps j) = _
    have hsum : (∑ j in Finset.range d,
        (if (0 : Nat) = 0 ∧ p = j then (1 : R) else 0) *
          evalFrom (List.replicate k (diagCenter d) ++ [diagRight d e])
            ps j)
        = (if (0 : Nat) = 0 ∧ p = p then (1 : R) else 0) *
          evalFrom (List.replicate k (diagCenter d) ++ [diagRight d e])
            ps p := by
      apply Finset.sum_eq_single
      · intro b _ hbp
        have hn : ¬ ((0 : Nat) = 0 ∧ p = b) := fun h => hbp h.2.symm
        rw [if_neg hn, zero_mul]
      · intro hnp
        exact absurd (Finset.mem_range.mpr hp) hnp
    rw [hsum, diag_tail_eval d e k ps p hlen'
      (fun x hx => hbd x (by simp [hx]))]
    unfold diagArray
    simp

theorem ranksL_diag_chain {R : Type} [CommRing R] (d m : Nat) (e : Nat → R) :
    ranksL (diagLeft d ::
        (List.replicate m (diagCenter d) ++ [diagRight d e])) =
      List.replicate (m + 1) d := by
  unfold ranksL
  rw [← List.cons_append, List.dropLast_concat, List.map_cons,
    List.map_replicate]
  rfl

/-- C6.  For a one-dimensional entries array and `sites ≥ 2`, `diagonal_mpa`
returns the hand-built chain (identity copy tensor, `sites - 2` three-way
copy tensors, diagonal matrix of the entries) with canonical form
`(sites - 1, sites)`, all bond ranks equal to `len(entries)`, and its dense
array has the entries on the main diagonal and zeros elsewhere; for
`sites = 1` it returns the direct dense construction from the entries. -/
theorem diagonal_mpa_spec {R : Type} [CommRing R] (d : Nat)
    (entries : NdArray R) (sites : Nat) (ps : List Nat)
    (entries1 : NdArray R) (p1 : Nat)
    (hshape : entries.shape = [d]) (hs : 2 ≤ sites)
    (hlen : ps.length = sites) (hbd : ∀ x ∈ ps, x < d)
    (hshape1 : entries1.ndim = 1) :
    diagonal_mpa entries sites = .ok ⟨diagLeft d ::
        (List.replicate (sites - 2) (diagCenter d) ++
          [diagRight d entries.val]),
      (sites - 1, sites)⟩ ∧
    ranksL ((diagLeft d ::
        (List.replicate (sites - 2) (diagCenter d) ++
          [diagRight d entries.val])) : List (LTen R)) =
      List.replicate (sites - 1) d ∧
    evalFrom (diagLeft d ::
        (List.replicate (sites - 2) (diagCenter d) ++
          [diagRight d entries.val])) ps 0 = diagArray entries.val ps ∧
    diagonal_mpa entries1 1 = .ok (from_array_1d entries1) ∧
    evalFrom (from_array_1d entries1).ltens [p1] 0 = entries1.val p1 := by
  have hd : entries.shape.headD 0 = d := by rw [hshape]; rfl
  have hnd : entries.ndim = 1 := by unfold NdArray.ndim; rw [hshape]; rfl
  refine ⟨?_, ?_, ?_, ?_, ?_⟩
  · unfold diagonal_mpa
    rw [if_neg (by omega), if_neg (by omega), if_neg (by omega), hd]
  · have := ranksL_diag_chain (R := R) d (sites - 2) entries.val
    rw [this]
    congr 1
    omega
  · exact diag_dense_eval d entries.val sites ps hs hlen hbd
  · unfold diagonal_mpa
    rw [if_neg (by omega), if_neg (by omega), if_pos (by omega)]
  · simp [evalFrom, from_array_1d]

theorem diagonal_mpa_spec_witness :
    diagonal_mpa entW 3 = .ok ⟨diagLeft 2 ::
        (List.replicate (3 - 2) (diagCenter 2) ++ [diagRight 2 entW.val]),
      (3 - 1, 3)⟩ ∧
    ranksL ((diagLeft 2 ::
        (List.replicate (3 - 2) (diagCenter 2) ++ [diagRight 2 entW.val])) :
          List (LTen ℤ)) = List.replicate (3 - 1) 2 ∧
    evalFrom (diagLeft 2 ::
        (List.replicate (3 - 2) (diagCenter 2) ++ [diagRight 2 entW.val]))
      [1, 1, 1] 0 = diagArray entW.val [1, 1, 1] ∧
    diagonal_mpa entW 1 = .ok (from_array_1d entW) ∧
    evalFrom (from_array_1d entW).ltens [1] 0 = entW.val 1 :=
  diagonal_mpa_spec 2 entW 3 [1, 1, 1] entW 1 rfl (by decide) (by decide)
    (by decide) rfl

/-- C9 counterexample.  With `sites = 0` and a two-axis entries array,
`diagonal_mpa` raises the `assert sites > 0` failure, not the
"one leg per site" not-implemented condition: the assertion is checked
first. -/
theorem diagonal_mpa_multiaxis_error_counterexample :
    diagonal_mpa ent2W 0 = .error .assertionError ∧
    PyErr.assertionError ≠
      PyErr.notImplementedError
        "Currently only supports diagonal MPA with one leg per site." :=
  ⟨rfl, by decide⟩

/-- C9 amended.  Whenever `sites ≥ 1` and the entries array has more than
one axis, `diagonal_mpa` raises the explicit "one leg per site"
not-implemented condition; with `sites = 0` the `sites > 0` assertion fires
first. -/
theorem diagonal_mpa_multiaxis_raises {R : Type} [CommRing R]
    (entries : NdArray R) (sites : Nat) (hs : 1 ≤ sites)
    (hnd : 1 < entries.ndim) :
    diagonal_mpa entries sites =
      .error (.notImplementedError
        "Currently only supports diagonal MPA with one leg per site.") := by
  unfold diagonal_mpa
  rw [if_neg (by omega), if_pos (by omega)]

theorem diagonal_mpa_multiaxis_raises_witness :
    diagonal_mpa ent2W 1 =
      .error (.notImplementedError
        "Currently only supports diagonal MPA with one leg per site.") :=
  diagonal_mpa_multiaxis_raises ent2W 1 (by decide) (by decide)

theorem getD_append_cons {α : Type} (pre : List α) (x : α) (l : List α)
    (d : α) : (pre ++ x :: l).getD pre.length d = x := by
  induction pre with
  | nil => rfl
  | cons a pre ih => exact ih

theorem set_append_cons {α : Type} (pre : List α) (x y : α) (l : List α) :
    (pre ++ x :: l).set pre.length y = pre ++ y :: l := by
  induction pre with
  | nil => rfl
  | cons a pre ih => simp only [List.cons_append, List.length_cons,
      List.set_cons_succ, ih]

/-- Applying the scramble loop body at bond `n = len(pre)` replaces exactly
the two tensors adjacent to that bond. -/
theorem scrambleBond_surgery {R : Type} [CommRing R] [StarRing R]
    (pre : List (LTen R)) (t1 t2 : LTen R) (post : List (LTen R))
    (u : Mat R) :
    scrambleBond (pre ++ t1 :: t2 :: post) pre.length u =
      pre ++ matdotR t1 u :: matdotL (dagger u) t2 :: post := by
  unfold scrambleBond
  rw [getD_append_cons, set_append_cons]
  have h1 : pre ++ matdotR t1 u :: t2 :: post
      = (pre ++ [matdotR t1 u]) ++ t2 :: post := by simp
  have h2 : pre.length + 1 = (pre ++ [matdotR t1 u]).length := by simp
  rw [h1, h2, getD_append_cons, set_append_cons]
  simp

theorem sum_contract_swap {R : Type} [CommRing R] (r m : Nat) (c : Nat → R)
    (dmat : Nat → Nat → R) (e : Nat → R) :
    (∑ k in Finset.range m, (∑ b in Finset.range r, c b * dmat b k) * e k)
      = ∑ b in Finset.range r, c b * (∑ k in Finset.range m, dmat b k * e k)
    := by
  calc (∑ k in Finset.range m,
        (∑ b in Finset.range r, c b * dmat b k) * e k)
      = ∑ k in Finset.range m, ∑ b in Finset.range r,
          c b * dmat b k * e k := by
        refine Finset.sum_congr rfl fun k _ => ?_
        rw [Finset.sum_mul]
    _ = ∑ b in Finset.range r, ∑ k in Finset.range m,
          c b * dmat b k * e k := Finset.sum_comm
    _ = ∑ b in Finset.range r, c b *
          (∑ k in Finset.range m, dmat b k * e k) := by
        refine Finset.sum_congr rfl fun b _ => ?_
        rw [Finset.mul_sum]
        exact Finset.sum_congr rfl fun k _ => by rw [mul_assoc]

theorem sum_unitary_collapse {R : Type} [CommRing R] [StarRing R]
    (u : Mat R) (r : Nat)
    (hu : ∀ a < r, ∀ b < r,
      (∑ j in Finset.range r, u.val a j * star (u.val b j)) =
        if a = b then 1 else 0)
    (f g : Nat → R) :
    (∑ j in Finset.range r,
      (∑ a in Finset.range r, f a * u.val a j) *
        (∑ b in Finset.range r, star (u.val b j) * g b))
      = ∑ a in Finset.range r, f a * g a := by
  calc (∑ j in Finset.range r,
        (∑ a in Finset.range r, f a * u.val a j) *
          (∑ b in Finset.range r, star (u.val b j) * g b))
      = ∑ j in Finset.range r, ∑ a in Finset.range r, ∑ b in Finset.range r,
          (f a * u.val a j) * (star (u.val b j) * g b) := by
        refine Finset.sum_congr rfl fun j _ => ?_
        rw [Finset.sum_mul_sum]
    _ = ∑ a in Finset.range r, ∑ j in Finset.range r, ∑ b in Finset.range r,
          (f a * u.val a j) * (star (u.val b j) * g b) := Finset.sum_comm
    _ = ∑ a in Finset.range r, ∑ b in Finset.range r, ∑ j in Finset.range r,
          (f a * u.val a j) * (star (u.val b j) * g b) := by
        exact Finset.sum_congr rfl fun a _ => Finset.sum_comm
    _ = ∑ a in Finset.range r, ∑ b in Finset.range r,
          (f a * g b) * ∑ j in Finset.range r,
            u.val a j * star (u.val b j) := by
        refine Finset.sum_congr rfl fun a _ => ?_
        refine Finset.sum_congr rfl fun b _ => ?_
        rw [Finset.mul_sum]
        refine Finset.sum_congr rfl fun j _ => ?_
        ring
    _ = ∑ a in Finset.range r, ∑ b in Finset.range r,
          if a = b then f a * g b else 0 := by
        refine Finset.sum_congr rfl fun a ha => ?_
        refine Finset.sum_congr rfl fun b hb => ?_
        rw [hu a (Finset.mem_range.mp ha) b (Finset.mem_range.mp hb),
          mul_ite, mul_one, mul_zero]
    _ = ∑ a in Finset.range r, f a * g a := by
        refine Finset.sum_congr rfl fun a ha => ?_
        rw [Finset.sum_ite_eq]
        exact if_pos ha

/-- The two-site core of the gauge-scrambling invariance: inserting `U` and
`U^H` at the shared bond leaves the partial contraction unchanged. -/
theorem scramble_two_site {R : Type} [CommRing R] [StarRing R]
    (t1 t2 : LTen R) (post : List (LTen R)) (p1 p2 : Nat) (ps2 : List Nat)
    (u : Mat R) (r : Nat)
    (h1 : t1.rr = r) (_h2 : t2.rl = r) (hrows : u.rows = r)
    (hcols : u.cols = r)
    (hu : ∀ a < r, ∀ b < r,
      (∑ j in Finset.range r, u.val a j * star (u.val b j)) =
        if a = b then 1 else 0) (i : Nat) :
    evalFrom (matdotR t1 u :: matdotL (dagger u) t2 :: post)
        (p1 :: p2 :: ps2) i
      = evalFrom (t1 :: t2 :: post) (p1 :: p2 :: ps2) i := by
  have hR : evalFrom (t1 :: t2 :: post) (p1 :: p2 :: ps2) i
      = ∑ a in Finset.range r, t1.val i p1 a *
          (∑ k in Finset.range t2.rr,
            t2.val a p2 k * evalFrom post ps2 k) := by
    show (∑ a in Finset.range t1.rr, t1.val i p1 a *
      (∑ k in Finset.range t2.rr, t2.val a p2 k * evalFrom post ps2 k)) = _
    rw [h1]
  have hL : evalFrom (matdotR t1 u :: matdotL (dagger u) t2 :: post)
      (p1 :: p2 :: ps2) i
      = ∑ j in Finset.range u.cols,
          (∑ a in Finset.range t1.rr, t1.val i p1 a * u.val a j) *
            (∑ k in Finset.range t2.rr,
              (∑ b in Finset.range u.rows, star (u.val b j) * t2.val b p2 k) *
                evalFrom post ps2 k) := rfl
  rw [hL, hR, hcols, h1, hrows]
  have hswap : ∀ j, (∑ k in Finset.range t2.rr,
      (∑ b in Finset.range r, star (u.val b j) * t2.val b p2 k) *
        evalFrom post ps2 k)
      = ∑ b in Finset.range r, star (u.val b j) *
          (∑ k in Finset.range t2.rr, t2.val b p2 k * evalFrom post ps2 k) :=
    fun j => sum_contract_swap r t2.rr (fun b => star (u.val b j))
      (fun b k => t2.val b p2 k) (fun k => evalFrom post ps2 k)
  simp only [hswap]
  exact sum_unitary_collapse u r hu (fun a => t1.val i p1 a)
    (fun b => ∑ k in Finset.range t2.rr, t2.val b p2 k * evalFrom post ps2 k)

/-- Congruence of the chain contraction under replacement of a suffix by one
with the same pointwise partial contraction. -/
theorem evalFrom_append_congr {R : Type} [CommRing R] (pre : List (LTen R))
    (ps1 : List Nat) (rest1 rest2 : List (LTen R)) (qs : List Nat)
    (h : ps1.length = pre.length)
    (hc : ∀ j, evalFrom rest1 qs j = evalFrom rest2 qs j) :
    ∀ i, evalFrom (pre ++ rest1) (ps1 ++ qs) i
      = evalFrom (pre ++ rest2) (ps1 ++ qs) i := by
  induction pre generalizing ps1 with
  | nil =>
    cases ps1 with
    | nil => intro i; exact hc i
    | cons p ps => simp at h
  | cons t pre ih =>
    cases ps1 with
    | nil => simp at h
    | cons p ps1 =>
      intro i
      show (∑ j in Finset.range t.rr,
        t.val i p j * evalFrom (pre ++ rest1) (ps1 ++ qs) j) = _
      refine Finset.sum_congr rfl fun j _ => ?_
      rw [ih ps1 (by simpa using h) j]
      rfl

/-- C4.  The gauge-scrambling loop body of `random_mpdo` at an internal bond
with a unitary of the bond-rank dimension: (a) it rewrites exactly the two
adjacent tensors to `l_n . U` and `U^H . l_{n+1}`, (b) the represented dense
array is unchanged, (c) the adjacency invariant
`rank_right(n) = rank_left(n+1)` is preserved, and (d) the final division by
the trace leaves a train of trace 1. -/
theorem mpdo_scramble_invariant {S : Type} [CommRing S] [StarRing S]
    {R : Type} [Field R] [StarRing R]
    (pre : List (LTen S)) (t1 t2 : LTen S) (post : List (LTen S))
    (ps1 : List Nat) (p1 p2 : Nat) (ps2 : List Nat) (i : Nat)
    (u : Mat S) (r : Nat)
    (ts2 : List (LTen R)) (lds : List Nat)
    (hlen : ps1.length = pre.length)
    (h1 : t1.rr = r) (h2 : t2.rl = r)
    (hrows : u.rows = r) (hcols : u.cols = r)
    (hu : unitaryOn u r)
    (htr : mptrace ts2 lds ≠ 0) :
    scrambleBond (pre ++ t1 :: t2 :: post) pre.length u
      = pre ++ matdotR t1 u :: matdotL (dagger u) t2 :: post ∧
    evalFrom (scrambleBond (pre ++ t1 :: t2 :: post) pre.length u)
        (ps1 ++ p1 :: p2 :: ps2) i
      = evalFrom (pre ++ t1 :: t2 :: post) (ps1 ++ p1 :: p2 :: ps2) i ∧
    (matdotR t1 u).rr = (matdotL (dagger u) t2).rl ∧
    mptrace (divScalar ts2 (mptrace ts2 lds)) lds = 1 := by
  refine ⟨scrambleBond_surgery pre t1 t2 post u, ?_, rfl, ?_⟩
  · rw [scrambleBond_surgery pre t1 t2 post u]
    exact evalFrom_append_congr pre ps1 _ _ (p1 :: p2 :: ps2) hlen
      (fun j => scramble_two_site t1 t2 post p1 p2 ps2 u r h1 h2 hrows hcols
        hu.1 j) i
  · cases ts2 with
    | nil =>
      cases lds with
      | nil => simp [mptrace, traceFrom, divScalar]
      | cons l ls => exact absurd rfl htr
    | cons t ts =>
      cases lds with
      | nil => exact absurd rfl htr
      | cons ld lds =>
        set c : R := mptrace (t :: ts) (ld :: lds) with hc
        show traceFrom (⟨t.rl, t.pd, t.rr, fun i p j => t.val i p j / c⟩ :: ts)
          (ld :: lds) 0 = 1
        show (∑ j in Finset.range t.rr,
          (∑ a in Finset.range ld, t.val 0 (a * ld + a) j / c) *
            traceFrom ts lds j) = 1
        have hstep : (∑ j in Finset.range t.rr,
            (∑ a in Finset.range ld, t.val 0 (a * ld + a) j / c) *
              traceFrom ts lds j)
            = (∑ j in Finset.range t.rr,
                (∑ a in Finset.range ld, t.val 0 (a * ld + a) j) *
                  traceFrom ts lds j) / c := by
          rw [Finset.sum_div]
          refine Finset.sum_congr rfl fun j _ => ?_
          rw [← Finset.sum_div, div_mul_eq_mul_div]
        rw [hstep]
        have hcc : (∑ j in Finset.range t.rr,
            (∑ a in Finset.range ld, t.val 0 (a * ld + a) j) *
              traceFrom ts lds j) = c := rfl
        rw [hcc]
        exact div_self htr

theorem mpdo_scramble_invariant_witness :
    scrambleBond ([] ++ t1W :: t2W :: []) (List.length ([] : List (LTen ℤ)))
        uW
      = [] ++ matdotR t1W uW :: matdotL (dagger uW) t2W :: [] ∧
    evalFrom (scrambleBond ([] ++ t1W :: t2W :: [])
        (List.length ([] : List (LTen ℤ))) uW) ([] ++ 0 :: 0 :: []) 0
      = evalFrom ([] ++ t1W :: t2W :: []) ([] ++ 0 :: 0 :: []) 0 ∧
    (matdotR t1W uW).rr = (matdotL (dagger uW) t2W).rl ∧
    mptrace (divScalar tsW (mptrace tsW [1])) [1] = 1 :=
  mpdo_scramble_invariant [] t1W t2W [] [] 0 0 [] 0 uW 1 tsW [1]
    rfl rfl rfl rfl rfl ⟨by decide, by decide⟩
    (by simp [mptrace, traceFrom, tsW, Finset.sum_range_one])

/-- C2.  For a host whose every site has two physical legs and at least as
many sites as the device, `expectations` yields exactly
`host_sites - w + 1` values, in increasing window-start order, the n-th
being the contraction of the probability map with the raveled reduced
operator of window `[n, n + w)`. -/
theorem expectations_windows {R Rho W V : Type} [Star R] (povm : MPPovm R)
    (mpa : HostMPA) (reduceW : Nat → Rho) (ravel : Rho → W)
    (dotf : List (PMTen R) → W → V)
    (hw : povm.ltens.length ≤ mpa.plegs.length)
    (hne : 1 ≤ mpa.plegs.length)
    (h2 : ∀ p ∈ mpa.plegs, p = 2) :
    expectations povm mpa reduceW ravel dotf =
      .ok ((List.range (mpa.plegs.length - povm.ltens.length + 1)).map
        (fun n => dotf povm.probability_map (ravel (reduceW n)))) ∧
    ((List.range (mpa.plegs.length - povm.ltens.length + 1)).map
        (fun n => dotf povm.probability_map (ravel (reduceW n)))).length
      = mpa.plegs.length - povm.ltens.length + 1 := by
  constructor
  · unfold expectations
    rw [if_neg (not_not_intro hw), if_neg ?hall1, if_pos ?hall2]
    · unfold reductions_mpo
      rw [List.map_map]
      rfl
    case hall1 =>
      intro hall
      match hm : mpa.plegs, hne with
      | q :: rest, _ =>
        have hq2 : q = 2 := h2 q (by rw [hm]; exact List.mem_cons_self q rest)
        rw [hm] at hall
        have := List.all_eq_true.mp hall q (List.mem_cons_self q rest)
        rw [hq2] at this
        exact absurd this (by decide)
    case hall2 =>
      refine List.all_eq_true.mpr fun p hp => ?_
      rw [h2 p hp]
      rfl
  · rw [List.length_map, List.length_range]

theorem expectations_windows_witness :
    expectations povmW hostW redW ravW dotW =
      .ok ((List.range (hostW.plegs.length - povmW.ltens.length + 1)).map
        (fun n => dotW povmW.probability_map (ravW (redW n)))) ∧
    ((List.range (hostW.plegs.length - povmW.ltens.length + 1)).map
        (fun n => dotW povmW.probability_map (ravW (redW n)))).length
      = hostW.plegs.length - povmW.ltens.length + 1 :=
  expectations_windows povmW hostW redW ravW dotW (by decide) (by decide)
    (by decide)

/-- C8.  The three failure modes of `expectations`: a host with one physical
leg everywhere raises the explicit not-implemented condition (distinct from
the generic value error), an otherwise not-understood host raises the
generic "could not understand" condition, and a host shorter than the
device fails the `assert len(self) <= len(mpa)` precondition. -/
theorem expectations_error_modes {R Rho W V : Type} [Star R]
    (povm1 : MPPovm R) (mpa1 : HostMPA) (red1 : Nat → Rho) (rav1 : Rho → W)
    (dot1 : List (PMTen R) → W → V)
    (povm2 : MPPovm R) (mpa2 : HostMPA) (red2 : Nat → Rho) (rav2 : Rho → W)
    (dot2 : List (PMTen R) → W → V)
    (povm3 : MPPovm R) (mpa3 : HostMPA) (red3 : Nat → Rho) (rav3 : Rho → W)
    (dot3 : List (PMTen R) → W → V)
    (hw1 : povm1.ltens.length ≤ mpa1.plegs.length)
    (hall1 : ∀ p ∈ mpa1.plegs, p = 1)
    (hw2 : povm2.ltens.length ≤ mpa2.plegs.length)
    (hn1 : ¬ mpa2.plegs.all (fun p => p == 1) = true)
    (hn2 : ¬ mpa2.plegs.all (fun p => p == 2) = true)
    (hw3 : mpa3.plegs.length < povm3.ltens.length) :
    expectations povm1 mpa1 red1 rav1 dot1 =
      .error (.notImplementedError "MPS expectations coming soon") ∧
    expectations povm2 mpa2 red2 rav2 dot2 =
      .error (.valueError "Could not understand data dype.") ∧
    expectations povm3 mpa3 red3 rav3 dot3 = .error .assertionError ∧
    PyErr.notImplementedError "MPS expectations coming soon" ≠
      PyErr.valueError "Could not understand data dype." := by
  refine ⟨?_, ?_, ?_, by decide⟩
  · unfold expectations
    rw [if_neg (not_not_intro hw1), if_pos ?h1]
    case h1 =>
      refine List.all_eq_true.mpr fun p hp => ?_
      rw [hall1 p hp]
      rfl
  · unfold expectations
    rw [if_neg (not_not_intro hw2), if_neg hn1, if_neg hn2]
  · unfold expectations
    rw [if_pos (by omega)]

theorem expectations_error_modes_witness :
    expectations povmW hostW1 redW ravW dotW =
      .error (.notImplementedError "MPS expectations coming soon") ∧
    expectations povmW hostWmix redW ravW dotW =
      .error (.valueError "Could not understand data dype.") ∧
    expectations povmW hostWshort redW ravW dotW = .error .assertionError ∧
    PyErr.notImplementedError "MPS expectations coming soon" ≠
      PyErr.valueError "Could not understand data dype." :=
  expectations_error_modes povmW hostW1 redW ravW dotW
    povmW hostWmix redW ravW dotW
    povmW hostWshort redW ravW dotW
    (by decide) (by decide) (by decide) (by decide) (by decide) (by decide)

/-- C10.  A host mixing one-leg and two-leg sites is rejected with the
generic "Could not understand data dype." ValueError, not with the
not-implemented condition: each branch requires a uniform leg count. -/
theorem expectations_mixed_legs {R Rho W V : Type} [Star R]
    (povm : MPPovm R) (mpa : HostMPA) (reduceW : Nat → Rho)
    (ravel : Rho → W) (dotf : List (PMTen R) → W → V)
    (hw : povm.ltens.length ≤ mpa.plegs.length)
    (hm1 : 1 ∈ mpa.plegs) (hm2 : 2 ∈ mpa.plegs) :
    expectations povm mpa reduceW ravel dotf =
      .error (.valueError "Could not understand data dype.") ∧
    expectations povm mpa reduceW ravel dotf ≠
      .error (.notImplementedError "MPS expectations coming soon") := by
  have heq : expectations povm mpa reduceW ravel dotf =
      .error (.valueError "Could not understand data dype.") := by
    unfold expectations
    rw [if_neg (not_not_intro hw), if_neg ?g1, if_neg ?g2]
    case g1 =>
      intro hall
      have := List.all_eq_true.mp hall 2 hm2
      exact absurd this (by decide)
    case g2 =>
      intro hall
      have := List.all_eq_true.mp hall 1 hm1
      exact absurd this (by decide)
  refine ⟨heq, ?_⟩
  rw [heq]
  intro hcon
  exact absurd (Except.error.inj hcon) (by decide)

theorem expectations_mixed_legs_witness :
    expectations povmW hostWmix redW ravW dotW =
      .error (.valueError "Could not understand data dype.") ∧
    expectations povmW hostWmix redW ravW dotW ≠
      .error (.notImplementedError "MPS expectations coming soon") :=
  expectations_mixed_legs povmW hostWmix redW ravW dotW (by decide)
    (by decide) (by decide)

/-- C5.  `_unitary_haar` computes exactly the steps the spec describes: for
every draw, QR collaborator, scaling constant and modulus function, the
source function and the spec's step-by-step description agree. -/
theorem unitary_haar_refines_spec {R : Type} [Field R] (dim : Nat)
    (z : Mat R) (qrf : Mat R → Mat R × Mat R) (sqrt2 : R) (absv : R → R) :
    _unitary_haar dim z qrf sqrt2 absv =
      haar_unitary_spec dim z qrf sqrt2 absv := by
  unfold _unitary_haar haar_unitary_spec
  have hm : (⟨dim, dim, fun i j => z.val i j / sqrt2⟩ : Mat R)
      = ⟨dim, dim, fun i j => (1 / sqrt2) * z.val i j⟩ := by
    congr 1
    funext i j
    rw [one_div, mul_comm, div_eq_mul_inv]
  rw [hm]
  dsimp only
  congr 1
  funext i j
  rw [mul_comm]

theorem getD_map_range {α : Type} (n k : Nat) (f : Nat → α) (d : α)
    (h : k < n) : ((List.range n).map f).getD k d = f k := by
  rw [List.getD_eq_getElem?_getD, List.getElem?_map, List.getElem?_range h]
  rfl

/-- C7.  For `sites ≥ intlen`, `random_local_ham` returns the local sum of
exactly `sites + 1 - intlen` terms; each term is the hermitized draw
divided by its Frobenius norm, hence Hermitian with squared Frobenius norm
1 and of `intlen`-site dimensions; `sites < intlen` fails the checked
precondition. -/
theorem random_local_ham_terms {R : Type} [Field R] [StarRing R]
    (sites ldim intlen : Nat) (gen : Nat → Mat R × R) (k i j : Nat)
    (sites2 ldim2 intlen2 : Nat) (gen2 : Nat → Mat R × R)
    (hsi : intlen ≤ sites)
    (hk : k < sites + 1 - intlen)
    (hstar : star (gen k).2 = (gen k).2)
    (hnz : (gen k).2 ≠ 0)
    (hfrob : frobSq (hermitize (gen k).1) = (gen k).2 * (gen k).2)
    (hrows : (gen k).1.rows = ldim ^ intlen)
    (hcols : (gen k).1.cols = ldim ^ intlen)
    (herr : sites2 < intlen2) :
    random_local_ham sites ldim intlen gen =
      .ok (local_sum ldim sites intlen (hamTerms sites intlen gen)) ∧
    (hamTerms sites intlen gen).length = sites + 1 - intlen ∧
    (hamTerms sites intlen gen).getD k matZero =
      _random_op_hn (gen k).1 (gen k).2 ∧
    star (((hamTerms sites intlen gen).getD k matZero).val j i) =
      ((hamTerms sites intlen gen).getD k matZero).val i j ∧
    frobSq ((hamTerms sites intlen gen).getD k matZero) = 1 ∧
    ((hamTerms sites intlen gen).getD k matZero).rows = ldim ^ intlen ∧
    ((hamTerms sites intlen gen).getD k matZero).cols = ldim ^ intlen ∧
    random_local_ham sites2 ldim2 intlen2 gen2 = .error .assertionError := by
  have hterm : (hamTerms sites intlen gen).getD k matZero =
      _random_op_hn (gen k).1 (gen k).2 := by
    unfold hamTerms
    exact getD_map_range _ k _ matZero hk
  refine ⟨?_, ?_, hterm, ?_, ?_, ?_, ?_, ?_⟩
  · unfold random_local_ham
    rw [if_neg (by omega)]
  · unfold hamTerms
    rw [List.length_map, List.length_range]
  · rw [hterm]
    show star (((gen k).1.val j i + star ((gen k).1.val i j)) / (gen k).2)
      = ((gen k).1.val i j + star ((gen k).1.val j i)) / (gen k).2
    rw [star_div₀, star_add, star_star, hstar, add_comm]
  · rw [hterm]
    unfold frobSq _random_op_hn
    simp only
    have hstep : (∑ a in Finset.range (gen k).1.rows,
        ∑ b in Finset.range (gen k).1.cols,
          ((hermitize (gen k).1).val a b / (gen k).2) *
            star ((hermitize (gen k).1).val a b / (gen k).2))
        = (∑ a in Finset.range (gen k).1.rows,
            ∑ b in Finset.range (gen k).1.cols,
              (hermitize (gen k).1).val a b *
                star ((hermitize (gen k).1).val a b)) /
          ((gen k).2 * star (gen k).2) := by
      rw [Finset.sum_div]
      refine Finset.sum_congr rfl fun a _ => ?_
      rw [Finset.sum_div]
      refine Finset.sum_congr rfl fun b _ => ?_
      rw [star_div₀, div_mul_div_comm]
    rw [hstep]
    have hfr : (∑ a in Finset.range (gen k).1.rows,
        ∑ b in Finset.range (gen k).1.cols,
          (hermitize (gen k).1).val a b *
            star ((hermitize (gen k).1).val a b))
        = frobSq (hermitize (gen k).1) := rfl
    rw [hfr, hfrob, hstar]
    exact div_self (mul_ne_zero hnz hnz)
  · rw [hterm]
    exact hrows
  · rw [hterm]
    exact hcols
  · unfold random_local_ham
    rw [if_pos (by omega)]

theorem random_local_ham_terms_witness :
    random_local_ham 1 1 1 genW =
      .ok (local_sum 1 1 1 (hamTerms 1 1 genW)) ∧
    (hamTerms 1 1 genW).length = 1 + 1 - 1 ∧
    (hamTerms 1 1 genW).getD 0 matZero =
      _random_op_hn (genW 0).1 (genW 0).2 ∧
    star (((hamTerms 1 1 genW).getD 0 matZero).val 0 0) =
      ((hamTerms 1 1 genW).getD 0 matZero).val 0 0 ∧
    frobSq ((hamTerms 1 1 genW).getD 0 matZero) = 1 ∧
    ((hamTerms 1 1 genW).getD 0 matZero).rows = 1 ^ 1 ∧
    ((hamTerms 1 1 genW).getD 0 matZero).cols = 1 ^ 1 ∧
    random_local_ham 0 1 1 genW = .error .assertionError :=
  random_local_ham_terms 1 1 1 genW 0 0 0 0 1 1 genW
    (by decide) (by decide) rfl (by decide)
    (by simp [frobSq, hermitize, genW, Finset.sum_range_one,
      one_add_one_eq_two])
    rfl rfl (by decide)

end Mpnum
